import Mathlib

/-!
# Restic REST server handlers (`cmd/serve/restic/restserver/handlers.go`)

A shallow embedding of the path-resolution layer and of the request handlers
of the restic REST server, together with the Go standard-library functions
they rely on (`path.Clean`, `path.Join`, `path.Base`, `strings.Join`,
`fmt.Sprintf("%02x", i)`).

Conventions.

* A Go `string` is a sequence of bytes.  It is represented by `List Char`,
  one list element per byte, so `len(s)` is `List.length` and `s[:2]` is
  `List.take 2`.
* The object store `Config.FS` is an interface value; it is a parameter of
  every handler (`FS σ`, over an arbitrary store state `σ`).  Every call a
  handler makes on the store is recorded, in order, in `Outcome.calls`.
* Logging (`log.Print`) and the Prometheus counters only write diagnostics and
  never influence the response or the store; they are not represented.
* The handlers covered are `CheckBlob`, `DeleteBlob`, `DeleteConfig`,
  `ListBlobs` and `CreateRepo`, with `getRepo`, `getRemote`, `getFileRemote`,
  `headRequest` and `deleteRequest`.  The handlers that read or write content
  (`GetBlob`, `SaveBlob` and the `config` variants) are not part of this
  development.
-/

namespace Restserver

/-- A Go string: a sequence of bytes, one `Char` per byte. -/
abbrev GoString := List Char

/-! ## Go standard library: `strings.Join`, `path.Clean`, `path.Join`, `path.Base` -/

/-- Go `strings.Join(elems, sep)`. -/
def stringsJoin : List GoString → GoString → GoString
  | [], _ => []
  | [a], _ => a
  | a :: b :: rest, sep => a ++ sep ++ stringsJoin (b :: rest) sep

/-- The test `r+1 == n || path[r+1] == '/'` of `path.Clean`, on the bytes that
follow the current one: the current path element ends here. -/
def atElemEnd : GoString → Bool
  | [] => true
  | c :: _ => c == '/'

/-- The backtracking of `path.Clean` on a `..` element, after the first
`out.w--`: `for out.w > dotdot && out.index(out.w) != '/' { out.w-- }`.
The buffer is kept last byte first; the argument is the buffer before the first
`out.w--`, whose head is therefore the byte `out.index(out.w)`. -/
def backtrack (dotdot : Nat) : List Char → List Char
  | [] => []
  | c :: rest => if dotdot < rest.length ∧ c ≠ '/' then backtrack dotdot rest else rest

/-- One iteration of the loop `for r < n { switch ... }` of Go `path.Clean`, at
`path[r:] = c :: t`: the bytes left to read, the output buffer and `dotdot`
after the iteration.  `out` is the content of the output buffer (`lazybuf`),
last byte first, so `out.w` is `out.length`. -/
def cleanStep (rooted : Bool) (c : Char) (t : GoString) (out : List Char) (dotdot : Nat) :
    GoString × List Char × Nat :=
  if c = '/' then
    -- empty path element
    (t, out, dotdot)
  else if c = '.' ∧ atElemEnd t = true then
    -- . element
    (t, out, dotdot)
  else if c = '.' ∧ t.head? = some '.' ∧ atElemEnd t.tail = true then
    -- .. element: remove to last /
    if dotdot < out.length then
      -- can backtrack
      (t.tail, backtrack dotdot out, dotdot)
    else if rooted = false then
      -- cannot backtrack, but not rooted, so append .. element
      let out1 := if 0 < out.length then '/' :: out else out
      (t.tail, '.' :: '.' :: out1, out1.length + 2)
    else
      (t.tail, out, dotdot)
  else
    -- real path element: add slash if needed, copy element
    let out1 :=
      if (rooted = true ∧ out.length ≠ 1) ∨ (rooted = false ∧ out.length ≠ 0)
      then '/' :: out else out
    ((c :: t).dropWhile (fun b => b != '/'),
      ((c :: t).takeWhile (fun b => b != '/')).reverse ++ out1, dotdot)

/-- The loop `for r < n { switch ... }` of Go `path.Clean`; `rest` is `path[r:]`.
Each iteration consumes one unit of fuel; `len(path)` units are enough since
every iteration advances `r` (see `cleanLoop_fuel`). -/
def cleanLoop (rooted : Bool) : Nat → GoString → List Char → Nat → List Char × Nat
  | 0, _, out, dotdot => (out, dotdot)
  | _ + 1, [], out, dotdot => (out, dotdot)
  | fuel + 1, c :: t, out, dotdot =>
    cleanLoop rooted fuel (cleanStep rooted c t out dotdot).1
      (cleanStep rooted c t out dotdot).2.1 (cleanStep rooted c t out dotdot).2.2

/-- The loop of `path.Clean` run to its end on `rest`. -/
def cleanRun (rooted : Bool) (rest : GoString) (out : List Char) (dotdot : Nat) :
    List Char × Nat :=
  cleanLoop rooted rest.length rest out dotdot

/-- The slash `path.Clean` writes before a real path element: `'/'` is appended
to the buffer `if rooted && out.w != 1 || !rooted && out.w != 0`. -/
def sepOut (rooted : Bool) (out : List Char) : List Char :=
  if (rooted = true ∧ out.length ≠ 1) ∨ (rooted = false ∧ out.length ≠ 0)
  then '/' :: out else out

/-- The state of `path.Clean` when its loop ends, on a non-empty path: whether
the path is rooted, the output buffer (last byte first) and `dotdot`. -/
def cleanOut : GoString → Bool × List Char × Nat
  | [] => (false, [], 0)
  | c :: t =>
    if c = '/' then (true, cleanRun true t ['/'] 1) else (false, cleanRun false (c :: t) [] 0)

/-- A plain path element: non-empty, without a slash, and neither `.` nor `..`. -/
def PlainSeg (s : GoString) : Prop :=
  s ≠ [] ∧ '/' ∉ s ∧ s ≠ ['.'] ∧ s ≠ ['.', '.']

instance : DecidablePred PlainSeg := fun s => by
  unfold PlainSeg
  infer_instance

/-- Go `path.Clean`. -/
def Clean (path : GoString) : GoString :=
  match path with
  | [] => ['.']
  | c :: t =>
    let out :=
      if c = '/' then (cleanLoop true (c :: t).length t ['/'] 1).1
      else (cleanLoop false (c :: t).length (c :: t) [] 0).1
    if out.length = 0 then ['.'] else out.reverse

/-- Go `path.Join`: the elements from the first non-empty one on are joined with
slashes and the result is cleaned; the result is empty when every element is. -/
def Join : List GoString → GoString
  | [] => []
  | e :: rest => if e ≠ [] then Clean (stringsJoin (e :: rest) ['/']) else Join rest

/-- Go `path.Base`. -/
def Base (path : GoString) : GoString :=
  if path = [] then ['.'] else
    -- strip trailing slashes
    let p1 := (path.reverse.dropWhile (fun b => b == '/')).reverse
    -- find the last element
    let p2 := (p1.reverse.takeWhile (fun b => b != '/')).reverse
    -- if empty now, it had only slashes
    if p2 = [] then ['/'] else p2

/-- Go `fmt.Sprintf("%02x", i)`: lowercase hexadecimal, zero-padded to width 2. -/
def sprintf02x (i : Nat) : GoString :=
  let ds := Nat.toDigits 16 i
  if ds.length < 2 then List.replicate (2 - ds.length) '0' ++ ds else ds

/-- Go `url.Values.Get(key)`: the first value associated with the key, or the
empty string when there is none. -/
def queryGet (q : List (GoString × GoString)) (key : GoString) : GoString :=
  match q.lookup key with
  | some v => v
  | none => []

/-- Go `strings.HasPrefix(s, p)`. -/
def stringsStartsWith (s p : GoString) : Bool := p.isPrefixOf s

/-! ## Requests, responses, the object store -/

/-- What the handlers read from an `*http.Request`: the matched route pattern
(`middleware.Pattern(r.Context())`), the route parameters (`pat.Param`) and the
URL query. -/
structure Request where
  pattern : GoString
  repoParam : GoString
  typeParam : GoString
  nameParam : GoString
  query : List (GoString × GoString)
deriving DecidableEq, Repr

/-- What a handler writes to the `http.ResponseWriter`: the status code (200
unless `http.Error` is called), the `Content-Length` header when it is set, and
the list of names marshalled into the body by `ListBlobs`. -/
structure Response where
  status : Nat
  contentLength : Option Int
  names : Option (List GoString)
deriving DecidableEq, Repr

/-- The process-wide `Config`, apart from `Config.FS`. -/
structure ServerConfig where
  appendOnly : Bool
  debug : Bool
  prometheus : Bool
deriving DecidableEq, Repr

/-- How `o.Remove()` can end. -/
inductive RemoveResult
  | ok
  | errorObjectNotFound
  | otherError
deriving DecidableEq, Repr

/-- The object store `Config.FS` as the handlers use it, over a store state `σ`:
`NewObject(remote)` finds an object and gives its size, `Remove` deletes a found
object, `Mkdir` creates a directory (`true` when it returns no error), and
`list.DirSorted` gives the remotes of the sorted entries of a directory.
`none` stands for a returned error. -/
structure FS (σ : Type) where
  newObject : σ → GoString → Option Int
  remove : σ → GoString → RemoveResult × σ
  mkdir : σ → GoString → Bool × σ
  dirSorted : σ → GoString → Option (List GoString)

/-- A call on the object store.  `openObject` (`blob.Open()`, in `getRequest`) and
`rcat` (`operations.Rcat`, in `saveRequest`) are the calls that read and write
content; no handler of this development makes them. -/
inductive Call
  | newObject (remote : GoString)
  | openObject (remote : GoString)
  | rcat (remote : GoString)
  | remove (remote : GoString)
  | mkdir (dir : GoString)
  | dirSorted (dir : GoString)
deriving DecidableEq, Repr

/-- The result of running a handler: the response, the calls made on the object
store in order, and the store state afterwards. -/
structure Outcome (σ : Type) where
  resp : Response
  calls : List Call
  store : σ

/-- The response of a handler that returns without touching the writer. -/
def okResponse : Response := ⟨200, none, none⟩

/-- Go `http.Error(w, http.StatusText(code), code)`. -/
def httpError (code : Nat) : Response := ⟨code, none, none⟩

def StatusBadRequest : Nat := 400
def StatusForbidden : Nat := 403
def StatusNotFound : Nat := 404
def StatusInternalServerError : Nat := 500

/-! ## `handlers.go` -/

def isHashed (dir : GoString) : Bool := dir == "data".toList

def validTypes : List GoString :=
  ["data".toList, "index".toList, "keys".toList, "locks".toList, "snapshots".toList,
    "config".toList]

def isValidType (name : GoString) : Bool :=
  validTypes.any (fun tpe => name == tpe)

/-- The function `getRepo` returns the repository location, relative to
`Config.Path`. -/
def getRepo (r : Request) : GoString :=
  if stringsStartsWith r.pattern "/:repo".toList then r.repoParam else ".".toList

/-- The function `getRemote` returns the remote for a file type in the repo. -/
def getRemote (r : Request) (fileType : GoString) : Except String GoString :=
  if !isValidType fileType then .error "invalid file type"
  else .ok (Join [getRepo r, fileType])

/-- The function `getFileRemote` returns the remote for a file in the repo. -/
def getFileRemote (r : Request) (fileType name : GoString) : Except String GoString :=
  if !isValidType fileType then .error "invalid file type"
  else if isHashed fileType then
    if name.length < 2 then .error "file name is too short"
    else .ok (Join [getRepo r, fileType, name.take 2, name])
  else .ok (Join [getRepo r, fileType, name])

/-- The function `headRequest`: head request the remote. -/
def headRequest {σ : Type} (fs : FS σ) (s : σ) (remote : GoString) : Outcome σ :=
  match fs.newObject s remote with
  | none => ⟨httpError StatusNotFound, [Call.newObject remote], s⟩
  | some size => ⟨⟨200, some size, none⟩, [Call.newObject remote], s⟩

/-- The function `deleteRequest`: delete the remote. -/
def deleteRequest {σ : Type} (fs : FS σ) (s : σ) (remote : GoString) : Outcome σ :=
  match fs.newObject s remote with
  | none => ⟨httpError StatusNotFound, [Call.newObject remote], s⟩
  | some _ =>
    match fs.remove s remote with
    | (RemoveResult.errorObjectNotFound, s1) =>
      ⟨httpError StatusNotFound, [Call.newObject remote, Call.remove remote], s1⟩
    | (RemoveResult.otherError, s1) =>
      ⟨httpError StatusInternalServerError, [Call.newObject remote, Call.remove remote], s1⟩
    | (RemoveResult.ok, s1) =>
      ⟨okResponse, [Call.newObject remote, Call.remove remote], s1⟩

/-- The handler `DeleteConfig` removes a config. -/
def DeleteConfig {σ : Type} (cfg : ServerConfig) (fs : FS σ) (r : Request) (s : σ) :
    Outcome σ :=
  if cfg.appendOnly then ⟨httpError StatusForbidden, [], s⟩
  else
    match getRemote r "config".toList with
    | .error _ => ⟨httpError StatusInternalServerError, [], s⟩
    | .ok remote => deleteRequest fs s remote

/-- The loop `for _, i := range items` of `ListBlobs`: the names collected so
far and the calls made, or `none` when a shard listing failed (the handler then
answers 404 and returns). -/
def listLoop {σ : Type} (fs : FS σ) (s : σ) (fileType : GoString) :
    List GoString → List GoString → List Call → Option (List GoString) × List Call
  | [], names, calls => (some names, calls)
  | i :: items, names, calls =>
    if isHashed fileType then
      match fs.dirSorted s i with
      | none => (none, calls ++ [Call.dirSorted i])
      | some subitems =>
        listLoop fs s fileType items (names ++ subitems.map Base) (calls ++ [Call.dirSorted i])
    else
      listLoop fs s fileType items (names ++ [Base i]) calls

/-- The handler `ListBlobs` lists all blobs of a given type. -/
def ListBlobs {σ : Type} (fs : FS σ) (r : Request) (s : σ) : Outcome σ :=
  let fileType := r.typeParam
  match getRemote r fileType with
  | .error _ => ⟨httpError StatusInternalServerError, [], s⟩
  | .ok dir =>
    match fs.dirSorted s dir with
    | none => ⟨httpError StatusNotFound, [Call.dirSorted dir], s⟩
    | some items =>
      match listLoop fs s fileType items [] [Call.dirSorted dir] with
      | (none, calls) => ⟨httpError StatusNotFound, calls, s⟩
      | (some names, calls) => ⟨⟨200, none, some names⟩, calls, s⟩

/-- The handler `CheckBlob` tests whether a blob exists. -/
def CheckBlob {σ : Type} (fs : FS σ) (r : Request) (s : σ) : Outcome σ :=
  match getFileRemote r r.typeParam r.nameParam with
  | .error _ => ⟨httpError StatusInternalServerError, [], s⟩
  | .ok remote => headRequest fs s remote

/-- The handler `DeleteBlob` deletes a blob from the repository. -/
def DeleteBlob {σ : Type} (cfg : ServerConfig) (fs : FS σ) (r : Request) (s : σ) :
    Outcome σ :=
  if cfg.appendOnly ∧ r.typeParam ≠ "locks".toList then ⟨httpError StatusForbidden, [], s⟩
  else
    match getFileRemote r r.typeParam r.nameParam with
    | .error _ => ⟨httpError StatusInternalServerError, [], s⟩
    | .ok remote => deleteRequest fs s remote

/-- The loop `for _, d := range validTypes` of `CreateRepo`: `true` when every
`Mkdir` returned no error, with the store state and the calls made. -/
def mkdirTypes {σ : Type} (fs : FS σ) (repo : GoString) :
    List GoString → σ → List Call → Bool × σ × List Call
  | [], s, calls => (true, s, calls)
  | d :: ds, s, calls =>
    if d = "config".toList then mkdirTypes fs repo ds s calls
    else
      match fs.mkdir s (Join [repo, d]) with
      | (false, s1) => (false, s1, calls ++ [Call.mkdir (Join [repo, d])])
      | (true, s1) => mkdirTypes fs repo ds s1 (calls ++ [Call.mkdir (Join [repo, d])])

/-- The loop `for i := 0; i < 256; i++` of `CreateRepo`, over the values of `i`
still to come. -/
def mkdirShards {σ : Type} (fs : FS σ) (repo : GoString) :
    List Nat → σ → List Call → Bool × σ × List Call
  | [], s, calls => (true, s, calls)
  | i :: is, s, calls =>
    match fs.mkdir s (Join [repo, "data".toList, sprintf02x i]) with
    | (false, s1) =>
      (false, s1, calls ++ [Call.mkdir (Join [repo, "data".toList, sprintf02x i])])
    | (true, s1) =>
      mkdirShards fs repo is s1
        (calls ++ [Call.mkdir (Join [repo, "data".toList, sprintf02x i])])

/-- The handler `CreateRepo` creates repository directories. -/
def CreateRepo {σ : Type} (fs : FS σ) (r : Request) (s : σ) : Outcome σ :=
  let repo := getRepo r
  if queryGet r.query "create".toList ≠ "true".toList then
    ⟨httpError StatusBadRequest, [], s⟩
  else
    match fs.mkdir s repo with
    | (false, s1) => ⟨httpError StatusInternalServerError, [Call.mkdir repo], s1⟩
    | (true, s1) =>
      match mkdirTypes fs repo validTypes s1 [Call.mkdir repo] with
      | (false, s2, calls2) => ⟨httpError StatusInternalServerError, calls2, s2⟩
      | (true, s2, calls2) =>
        match mkdirShards fs repo (List.range 256) s2 calls2 with
        | (false, s3, calls3) => ⟨httpError StatusInternalServerError, calls3, s3⟩
        | (true, s3, calls3) => ⟨okResponse, calls3, s3⟩

/-! ## Vocabulary of the statements -/

/-- The five object types other than `data`. -/
def plainTypes : List GoString :=
  ["index".toList, "keys".toList, "locks".toList, "snapshots".toList, "config".toList]

/-- The path `rel` below the repository `repo`, textually: `repo/rel`, and `rel`
itself when `repo` is `.`, the storage root. -/
def underRepo (repo rel : GoString) : GoString :=
  if repo = ['.'] then rel else repo ++ '/' :: rel

/-- A request on the route `/:type/:name`, which has no repository segment. -/
def rootRequest (tpe name : GoString) (query : List (GoString × GoString)) : Request :=
  { pattern := "/:type/:name".toList, repoParam := [], typeParam := tpe, nameParam := name,
    query := query }

/-- A request on the route `/:repo/:type/:name`. -/
def repoRequest (repo tpe name : GoString) (query : List (GoString × GoString)) : Request :=
  { pattern := "/:repo/:type/:name".toList, repoParam := repo, typeParam := tpe,
    nameParam := name, query := query }

/-- A small in-memory object store for the examples: the objects with their
sizes, the directory listings, the directories `Mkdir` fails on, and the
directories created so far. -/
structure MemStore where
  objects : List (GoString × Int)
  listings : List (GoString × List GoString)
  badDirs : List GoString
  made : List GoString
deriving DecidableEq, Repr

/-- The operations of the in-memory object store. -/
def memFS : FS MemStore where
  newObject := fun s p => s.objects.lookup p
  remove := fun s p =>
    if (s.objects.lookup p).isSome then
      (RemoveResult.ok, { s with objects := s.objects.filter (fun o => o.1 != p) })
    else (RemoveResult.errorObjectNotFound, s)
  mkdir := fun s d =>
    if d ∈ s.badDirs then (false, s) else (true, { s with made := s.made ++ [d] })
  dirSorted := fun s d => s.listings.lookup d

/-- A store that holds the data blob `repo/data/ab/abcd` (5 bytes) and the lock
`repo/locks/l1` (3 bytes). -/
def sampleStore : MemStore :=
  { objects := [("repo/data/ab/abcd".toList, 5), ("repo/locks/l1".toList, 3)],
    listings :=
      [("repo/data".toList, ["repo/data/ab".toList, "repo/data/cd".toList]),
       ("repo/data/ab".toList, ["repo/data/ab/abcd".toList, "repo/data/ab/abff".toList]),
       ("repo/data/cd".toList, ["repo/data/cd/cd01".toList]),
       ("repo/locks".toList, ["repo/locks/l1".toList])],
    badDirs := [],
    made := [] }

/-- Append-only mode switched on. -/
def appendOnlyConfig : ServerConfig := { appendOnly := true, debug := false, prometheus := false }

/-- The types `CreateRepo` creates a directory for: the valid types apart from
`config`, in the order of `validTypes`. -/
def typeDirs : List GoString :=
  ["data".toList, "index".toList, "keys".toList, "locks".toList, "snapshots".toList]

/-- The paths of the `Mkdir` calls of `CreateRepo`, in order: the repository
root, the type directories, the 256 shard directories. -/
def mkdirSequence (repo : GoString) : List GoString :=
  repo :: (typeDirs.map (fun d => Join [repo, d])
    ++ (List.range 256).map (fun i => Join [repo, "data".toList, sprintf02x i]))

/-- Running `Mkdir` on the paths of a list in order, from the state `s`: the
position (counted from 1) of the first call that returns an error, `none` when
every call succeeds. -/
def firstFailure {σ : Type} (fs : FS σ) : σ → List GoString → Option Nat
  | _, [] => none
  | s, d :: ds =>
    if (fs.mkdir s d).1 = true then (firstFailure fs (fs.mkdir s d).2 ds).map (fun k => k + 1)
    else some 1

/-- `Mkdir` on the paths of a list in order, stopping at the first error: `true`
when every call succeeded, the store state and the calls made. -/
def mkdirRun {σ : Type} (fs : FS σ) : List GoString → σ → List Call → Bool × σ × List Call
  | [], s, calls => (true, s, calls)
  | d :: ds, s, calls =>
    match fs.mkdir s d with
    | (false, s1) => (false, s1, calls ++ [Call.mkdir d])
    | (true, s1) => mkdirRun fs ds s1 (calls ++ [Call.mkdir d])

/-- The lowercase hexadecimal digits. -/
def hexChars : List Char := "0123456789abcdef".toList

/-- The two-digit lowercase hexadecimal numeral of `i`, for `i < 256`. -/
def hexPair (i : Nat) : GoString := [hexChars.getD (i / 16) '0', hexChars.getD (i % 16) '0']

/-- The parent directory of a path, textually: the path up to, and without, its
last slash. -/
def parentDir (p : GoString) : GoString :=
  ((p.reverse.dropWhile (fun b => b != '/')).tail).reverse

/-- A request `POST /:repo/?create=true`. -/
def createRequest (repo : GoString) : Request :=
  { pattern := "/:repo/".toList, repoParam := repo, typeParam := [], nameParam := [],
    query := [("create".toList, "true".toList)] }

/-- A request `POST /?create=true`, without repository segment. -/
def rootCreateRequest : Request :=
  { pattern := "/".toList, repoParam := [], typeParam := [], nameParam := [],
    query := [("create".toList, "true".toList)] }

/-- A store on which `Mkdir` fails for `repo/index` and for nothing else. -/
def brokenIndexStore : MemStore :=
  { objects := [], listings := [], badDirs := ["repo/index".toList], made := [] }

end Restserver

namespace Restserver

/-! ## Facts about `path.Clean` -/

theorem atElemEnd_append (t q : GoString) : atElemEnd (t ++ '/' :: q) = atElemEnd t := by
  cases t <;> simp [atElemEnd]

theorem takeWhile_append_slash (l q : GoString) :
    (l ++ '/' :: q).takeWhile (fun b => b != '/') = l.takeWhile (fun b => b != '/') := by
  induction l with
  | nil => simp
  | cons a l ih =>
    by_cases h : a = '/'
    · simp [h]
    · simp [List.takeWhile_cons, h, ih]

theorem dropWhile_append_slash (l q : GoString) :
    (l ++ '/' :: q).dropWhile (fun b => b != '/')
      = l.dropWhile (fun b => b != '/') ++ '/' :: q := by
  induction l with
  | nil => simp
  | cons a l ih =>
    by_cases h : a = '/'
    · simp [h]
    · simp [List.dropWhile_cons, h, ih]

theorem dropWhile_length_le (l : GoString) (f : Char → Bool) :
    (l.dropWhile f).length ≤ l.length := by
  induction l with
  | nil => simp
  | cons a l ih =>
    rw [List.dropWhile_cons]
    split
    · exact Nat.le_succ_of_le ih
    · exact Nat.le_refl _

/-- Every iteration of the loop of `path.Clean` advances the read position. -/
theorem cleanStep_length (rooted : Bool) (c : Char) (t : GoString) (out : List Char)
    (dd : Nat) : (cleanStep rooted c t out dd).1.length ≤ t.length := by
  unfold cleanStep
  split
  · simp
  · split
    · simp
    · split
      · split
        · simp
        · split <;> simp
      · rename_i h _ _
        simp only [List.dropWhile_cons, bne_iff_ne, ne_eq, h, not_false_eq_true, if_true,
          decide_True]
        exact dropWhile_length_le _ _

/-- More fuel than the length of the input does not change the result: the loop
of `path.Clean` has ended within `len(path)` iterations. -/
theorem cleanLoop_fuel (rooted : Bool) : ∀ (n m : Nat) (rest : GoString) (out : List Char)
    (dd : Nat), rest.length ≤ n → rest.length ≤ m →
    cleanLoop rooted n rest out dd = cleanLoop rooted m rest out dd := by
  intro n
  induction n with
  | zero =>
    intro m rest out dd h _
    have : rest = [] := List.length_eq_zero.mp (Nat.le_zero.mp h)
    subst this
    cases m <;> simp [cleanLoop]
  | succ n ih =>
    intro m rest out dd h1 h2
    cases rest with
    | nil => cases m <;> simp [cleanLoop]
    | cons c t =>
      cases m with
      | zero => simp at h2
      | succ m =>
        simp only [cleanLoop]
        have hl := cleanStep_length rooted c t out dd
        simp only [List.length_cons] at h1 h2
        exact ih m _ _ _ (by omega) (by omega)

theorem cleanRun_nil (rooted : Bool) (out : List Char) (dd : Nat) :
    cleanRun rooted [] out dd = (out, dd) := by
  simp [cleanRun, cleanLoop]

theorem cleanRun_cons (rooted : Bool) (c : Char) (t : GoString) (out : List Char) (dd : Nat) :
    cleanRun rooted (c :: t) out dd
      = cleanRun rooted (cleanStep rooted c t out dd).1 (cleanStep rooted c t out dd).2.1
          (cleanStep rooted c t out dd).2.2 := by
  have hl := cleanStep_length rooted c t out dd
  simp only [cleanRun, List.length_cons, cleanLoop]
  exact cleanLoop_fuel rooted _ _ _ _ _ hl (Nat.le_refl _)

/-- An iteration of `path.Clean` treats a following slash like the end of the
path: what follows the slash does not influence the iteration. -/
theorem cleanStep_append (rooted : Bool) (c : Char) (t q : GoString) (out : List Char)
    (dd : Nat) :
    cleanStep rooted c (t ++ '/' :: q) out dd
      = ((cleanStep rooted c t out dd).1 ++ '/' :: q, (cleanStep rooted c t out dd).2.1,
          (cleanStep rooted c t out dd).2.2) := by
  have htail : atElemEnd (t ++ '/' :: q).tail = true ∧ (t ++ '/' :: q).head? = some '.'
      ↔ atElemEnd t.tail = true ∧ t.head? = some '.' := by
    cases t with
    | nil => simp
    | cons d t => simp [atElemEnd_append]
  have htl : t.head? = some '.' → (t ++ '/' :: q).tail = t.tail ++ '/' :: q := by
    cases t with
    | nil => simp
    | cons d t => simp
  have hhead : (t ++ '/' :: q).head? = some '.' ↔ t.head? = some '.' := by
    cases t with
    | nil => simp
    | cons d t => simp
  unfold cleanStep
  by_cases h1 : c = '/'
  · simp [h1]
  · simp only [h1, if_false]
    by_cases h2 : c = '.' ∧ atElemEnd t = true
    · simp [h2, atElemEnd_append]
    · have h2' : ¬ (c = '.' ∧ atElemEnd (t ++ '/' :: q) = true) := by
        rw [atElemEnd_append]; exact h2
      simp only [h2, h2', if_false]
      by_cases h3 : c = '.' ∧ t.head? = some '.' ∧ atElemEnd t.tail = true
      · have h3' : c = '.' ∧ (t ++ '/' :: q).head? = some '.'
            ∧ atElemEnd (t ++ '/' :: q).tail = true :=
          ⟨h3.1, hhead.mpr h3.2.1, (htail.mpr ⟨h3.2.2, h3.2.1⟩).1⟩
        rw [if_pos h3, if_pos h3', htl h3.2.1]
        by_cases h4 : dd < out.length
        · simp only [h4, if_true]
        · by_cases h5 : rooted = false
          · simp only [h4, h5, if_true, if_false]
          · simp only [if_neg h4, if_neg h5]
      · have h3' : ¬ (c = '.' ∧ (t ++ '/' :: q).head? = some '.'
            ∧ atElemEnd (t ++ '/' :: q).tail = true) := by
          intro h
          exact h3 ⟨h.1, hhead.mp h.2.1, (htail.mp ⟨h.2.2, h.2.1⟩).1⟩
        simp only [h3, h3', if_false]
        have e1 := takeWhile_append_slash (c :: t) q
        have e2 := dropWhile_append_slash (c :: t) q
        simp only [List.cons_append] at e1 e2
        rw [e1, e2]

/-- The loop of `path.Clean` works element by element: running it on
`p ++ "/" ++ q` is running it on `p` and then on `q`. -/
theorem cleanRun_append (rooted : Bool) : ∀ (n : Nat) (p q : GoString) (out : List Char)
    (dd : Nat), p.length ≤ n →
    cleanRun rooted (p ++ '/' :: q) out dd
      = cleanRun rooted q (cleanRun rooted p out dd).1 (cleanRun rooted p out dd).2 := by
  intro n
  induction n with
  | zero =>
    intro p q out dd h
    have : p = [] := List.length_eq_zero.mp (Nat.le_zero.mp h)
    subst this
    rw [List.nil_append, cleanRun_cons, cleanRun_nil]
    simp [cleanStep]
  | succ n ih =>
    intro p q out dd h
    cases p with
    | nil =>
      rw [List.nil_append, cleanRun_cons, cleanRun_nil]
      simp [cleanStep]
    | cons c t =>
      have hl := cleanStep_length rooted c t out dd
      simp only [List.length_cons] at h
      rw [List.cons_append, cleanRun_cons, cleanStep_append, cleanRun_cons rooted c t]
      exact ih _ _ _ _ (by omega)

theorem takeWhile_no_slash (s : GoString) (h : '/' ∉ s) :
    s.takeWhile (fun b => b != '/') = s := by
  induction s with
  | nil => rfl
  | cons a l ih =>
    have ha : a ≠ '/' := fun e => h (by simp [e])
    have hl : '/' ∉ l := fun e => h (List.mem_cons_of_mem _ e)
    simp [List.takeWhile_cons, ha, ih hl]

theorem dropWhile_no_slash (s : GoString) (h : '/' ∉ s) :
    s.dropWhile (fun b => b != '/') = [] := by
  induction s with
  | nil => rfl
  | cons a l ih =>
    have ha : a ≠ '/' := fun e => h (by simp [e])
    have hl : '/' ∉ l := fun e => h (List.mem_cons_of_mem _ e)
    simp [List.dropWhile_cons, ha, ih hl]

theorem atElemEnd_no_slash (t : GoString) (h : '/' ∉ t) (he : atElemEnd t = true) :
    t = [] := by
  cases t with
  | nil => rfl
  | cons d t =>
    simp only [atElemEnd, beq_iff_eq] at he
    exact absurd (by simp [he]) h

/-- On a plain path element the loop of `path.Clean` writes a separating slash if
needed and copies the element. -/
theorem cleanRun_plain (rooted : Bool) (s : GoString) (out : List Char) (dd : Nat)
    (hs : PlainSeg s) :
    cleanRun rooted s out dd = (s.reverse ++ sepOut rooted out, dd) := by
  obtain ⟨hne, hsl, hd, hdd⟩ := hs
  cases s with
  | nil => exact absurd rfl hne
  | cons c t =>
    have hc : c ≠ '/' := fun e => hsl (by simp [e])
    have ht : '/' ∉ t := fun e => hsl (List.mem_cons_of_mem _ e)
    have h2 : ¬ (c = '.' ∧ atElemEnd t = true) := by
      rintro ⟨e1, e2⟩
      have := atElemEnd_no_slash t ht e2
      subst this; subst e1
      exact hd rfl
    have h3 : ¬ (c = '.' ∧ t.head? = some '.' ∧ atElemEnd t.tail = true) := by
      rintro ⟨e1, e2, e3⟩
      cases t with
      | nil => simp at e2
      | cons d t =>
        simp only [List.head?_cons, Option.some.injEq] at e2
        simp only [List.tail_cons] at e3
        have ht' : '/' ∉ t := fun e => ht (List.mem_cons_of_mem _ e)
        have := atElemEnd_no_slash t ht' e3
        subst this; subst e1; subst e2
        exact hdd rfl
    have hstep : cleanStep rooted c t out dd
        = ([], (c :: t).reverse ++ sepOut rooted out, dd) := by
      unfold cleanStep
      rw [if_neg hc, if_neg h2, if_neg h3, takeWhile_no_slash _ hsl, dropWhile_no_slash _ hsl]
      rfl
    rw [cleanRun_cons, hstep, cleanRun_nil]

theorem Clean_eq_cleanOut (p : GoString) (hp : p ≠ []) :
    Clean p = if (cleanOut p).2.1.length = 0 then ['.'] else (cleanOut p).2.1.reverse := by
  cases p with
  | nil => exact absurd rfl hp
  | cons c t =>
    unfold Clean cleanOut
    by_cases hc : c = '/'
    · simp only [hc, if_true]
      rw [cleanLoop_fuel true (('/' :: t).length) t.length t _ _ (by simp) (Nat.le_refl _)]
      rfl
    · simp only [hc, if_false]
      rfl

/-- Appending a plain element to a non-empty path: `path.Clean` ends with the
state it reaches on the path, plus a separating slash if needed and the element. -/
theorem cleanOut_snoc (p s : GoString) (hp : p ≠ []) (hs : PlainSeg s) :
    cleanOut (p ++ '/' :: s)
      = ((cleanOut p).1, s.reverse ++ sepOut (cleanOut p).1 (cleanOut p).2.1,
          (cleanOut p).2.2) := by
  cases p with
  | nil => exact absurd rfl hp
  | cons c t =>
    rw [List.cons_append]
    unfold cleanOut
    by_cases hc : c = '/'
    · simp only [hc, if_true]
      rw [cleanRun_append true t.length t s _ _ (Nat.le_refl _), cleanRun_plain true s _ _ hs]
    · simp only [hc, if_false]
      rw [← List.cons_append,
        cleanRun_append false (c :: t).length (c :: t) s _ _ (Nat.le_refl _),
        cleanRun_plain false s _ _ hs]

theorem cleanOut_plain (s : GoString) (hs : PlainSeg s) :
    cleanOut s = (false, s.reverse, 0) := by
  have hs' := hs
  obtain ⟨hne, hsl, _, _⟩ := hs
  cases s with
  | nil => exact absurd rfl hne
  | cons c t =>
    have hc : c ≠ '/' := fun e => hsl (by simp [e])
    simp only [cleanOut]
    rw [if_neg hc, cleanRun_plain false _ _ _ hs']
    simp [sepOut]

theorem sepOut_length_pos (out : List Char) : 0 < (sepOut true out).length := by
  unfold sepOut
  split
  · simp
  · rename_i h
    simp only [true_and, Bool.true_eq_false, false_and, or_false, ne_eq, not_not] at h
    omega

/-- The result of `path.Clean` on `p/s1/s2` is its result on `p/s1` followed by
`/s2`, for plain elements `s1` and `s2` and any non-empty `p`. -/
theorem Clean_snoc_snoc (p s1 s2 : GoString) (hp : p ≠ []) (h1 : PlainSeg s1)
    (h2 : PlainSeg s2) :
    Clean (p ++ '/' :: (s1 ++ '/' :: s2)) = Clean (p ++ '/' :: s1) ++ '/' :: s2 := by
  have e : p ++ '/' :: (s1 ++ '/' :: s2) = (p ++ '/' :: s1) ++ '/' :: s2 := by simp
  have hne : p ++ '/' :: s1 ≠ [] := by simp
  have hs1 : 0 < s1.length := List.length_pos.mpr h1.1
  rw [e, Clean_eq_cleanOut _ (by simp), Clean_eq_cleanOut _ hne, cleanOut_snoc _ _ hne h2,
    cleanOut_snoc _ _ hp h1]
  simp only [List.length_append, List.length_reverse]
  have hsep : sepOut (cleanOut p).1 (s1.reverse ++ sepOut (cleanOut p).1 (cleanOut p).2.1)
      = '/' :: (s1.reverse ++ sepOut (cleanOut p).1 (cleanOut p).2.1) := by
    generalize (cleanOut p).2.1 = o
    cases hr : (cleanOut p).1
    · unfold sepOut
      rw [if_pos]
      right
      simp only [List.length_append, List.length_reverse, true_and]
      omega
    · have := sepOut_length_pos o
      rw [sepOut, if_pos]
      left
      simp only [List.length_append, List.length_reverse, true_and]
      omega
  rw [hsep]
  have n1 : ¬ (s2.length + (('/' :: (s1.reverse ++ sepOut (cleanOut p).1 (cleanOut p).2.1)).length)
      = 0) := by simp
  have n2 : ¬ (s1.length + (sepOut (cleanOut p).1 (cleanOut p).2.1).length = 0) := by omega
  rw [if_neg n1, if_neg n2]
  simp

/-! ## Facts about `path.Join` -/

theorem Clean_plain_snoc (p s : GoString) (hp : PlainSeg p) (hs : PlainSeg s) :
    Clean (p ++ '/' :: s) = p ++ '/' :: s := by
  have hl : 0 < p.length := List.length_pos.mpr hp.1
  rw [Clean_eq_cleanOut _ (by simp), cleanOut_snoc _ _ hp.1 hs, cleanOut_plain _ hp]
  have hsep : sepOut false p.reverse = '/' :: p.reverse := by
    rw [sepOut, if_pos]
    right
    simp only [List.length_reverse, true_and]
    omega
  simp [hsep]

theorem Clean_dot_snoc (s : GoString) (hs : PlainSeg s) : Clean ('.' :: '/' :: s) = s := by
  have hl : 0 < s.length := List.length_pos.mpr hs.1
  have e : '.' :: '/' :: s = ['.'] ++ '/' :: s := rfl
  have hdot : cleanOut ['.'] = (false, [], 0) := by decide
  rw [e, Clean_eq_cleanOut _ (by simp), cleanOut_snoc _ _ (by simp) hs, hdot]
  have hn : ¬ (s.length = 0) := by omega
  simp [sepOut, hn]

/-- The result of `path.Join` on three elements is its result on the first two
followed by a slash and the third, when the last two are plain. -/
theorem Join_snoc3 (repo a b : GoString) (ha : PlainSeg a) (hb : PlainSeg b) :
    Join [repo, a, b] = Join [repo, a] ++ '/' :: b := by
  by_cases hr : repo = []
  · subst hr
    simp only [Join, ne_eq, not_true_eq_false, if_false, ha.1, not_false_eq_true, if_true,
      stringsJoin]
    rw [List.append_assoc, List.singleton_append, Clean_plain_snoc a b ha hb]
    have := cleanOut_plain a ha
    rw [Clean_eq_cleanOut _ ha.1, this]
    have hl : 0 < a.length := List.length_pos.mpr ha.1
    have hn : ¬ (a.length = 0) := by omega
    simp [hn]
  · simp only [Join, ne_eq, hr, not_false_eq_true, if_true, stringsJoin]
    have e1 : repo ++ ['/'] ++ (a ++ ['/'] ++ b) = repo ++ '/' :: (a ++ '/' :: b) := by simp
    have e2 : repo ++ ['/'] ++ a = repo ++ '/' :: a := by simp
    rw [e1, e2]
    exact Clean_snoc_snoc repo a b hr ha hb

/-- The result of `path.Join` on four elements is its result on the first three
followed by a slash and the fourth, when the last three are plain. -/
theorem Join_snoc4 (repo a b c : GoString) (ha : PlainSeg a) (hb : PlainSeg b)
    (hc : PlainSeg c) : Join [repo, a, b, c] = Join [repo, a, b] ++ '/' :: c := by
  by_cases hr : repo = []
  · subst hr
    simp only [Join, ne_eq, not_true_eq_false, if_false, ha.1, not_false_eq_true, if_true,
      stringsJoin]
    have e1 : a ++ ['/'] ++ (b ++ ['/'] ++ c) = a ++ '/' :: (b ++ '/' :: c) := by simp
    have e2 : a ++ ['/'] ++ b = a ++ '/' :: b := by simp
    rw [e1, e2]
    exact Clean_snoc_snoc a b c ha.1 hb hc
  · simp only [Join, ne_eq, hr, not_false_eq_true, if_true, stringsJoin]
    have e1 : repo ++ ['/'] ++ (a ++ ['/'] ++ (b ++ ['/'] ++ c))
        = (repo ++ '/' :: a) ++ '/' :: (b ++ '/' :: c) := by simp
    have e2 : repo ++ ['/'] ++ (a ++ ['/'] ++ b) = (repo ++ '/' :: a) ++ '/' :: b := by simp
    rw [e1, e2]
    exact Clean_snoc_snoc _ b c (by simp) hb hc

/-- Below a repository that is the storage root `.` or a plain path element,
`path.Join` of the repository and a plain element is the textual path. -/
theorem Join_underRepo (repo a : GoString) (hrepo : repo = ['.'] ∨ PlainSeg repo)
    (ha : PlainSeg a) : Join [repo, a] = underRepo repo a := by
  rcases hrepo with h | h
  · subst h
    simp only [Join, ne_eq, List.cons_ne_self, not_false_eq_true, if_true, stringsJoin,
      underRepo]
    exact Clean_dot_snoc a ha
  · have hd : repo ≠ ['.'] := h.2.2.1
    simp only [Join, ne_eq, h.1, not_false_eq_true, if_true, stringsJoin, underRepo, hd,
      if_false]
    rw [List.append_assoc, List.singleton_append]
    exact Clean_plain_snoc repo a h ha

theorem underRepo_append (repo a b : GoString) :
    underRepo repo (a ++ '/' :: b) = underRepo repo a ++ '/' :: b := by
  unfold underRepo
  split <;> simp

/-! ## Path resolution: `getRemote`, `getFileRemote` -/

theorem isValidType_iff (tpe : GoString) : isValidType tpe = true ↔ tpe ∈ validTypes := by
  unfold isValidType
  rw [List.any_eq_true]
  constructor
  · rintro ⟨x, hx, h⟩
    rw [beq_iff_eq] at h
    exact h ▸ hx
  · intro h
    exact ⟨tpe, h, by simp⟩

theorem plainTypes_valid (tpe : GoString) (h : tpe ∈ plainTypes) :
    isValidType tpe = true ∧ isHashed tpe = false ∧ PlainSeg tpe := by
  simp only [plainTypes, List.mem_cons, List.mem_singleton, List.not_mem_nil, or_false] at h
  rcases h with h | h | h | h | h <;> subst h <;> decide

theorem take_two_plain (name : GoString) (hlen : 2 ≤ name.length) (hsl : '/' ∉ name)
    (hdd : name.take 2 ≠ ['.', '.']) : PlainSeg (name.take 2) ∧ PlainSeg name := by
  match name, hlen, hsl, hdd with
  | a :: b :: rest, _, hsl, hdd =>
    simp only [List.take_succ_cons, List.take_zero] at hdd ⊢
    have ha : a ≠ '/' := fun e => hsl (by simp [e])
    have hb : b ≠ '/' := fun e => hsl (by simp [e])
    refine ⟨⟨by simp, ?_, by simp, hdd⟩, ⟨by simp, hsl, by simp, ?_⟩⟩
    · simp only [List.mem_cons, List.mem_singleton, List.not_mem_nil, or_false, not_or]
      exact ⟨fun e => ha e.symm, fun e => hb e.symm⟩
    · intro e
      apply hdd
      simp only [List.cons.injEq] at e
      simp [e.1, e.2.1]

/-- C1 (amended).  The path `getFileRemote` returns is built with `path.Join`.
When the repository prefix is the storage root `.` or a plain path element and
the name contains no slash: for every type in {index, keys, locks, snapshots,
config} and every name that is a plain path element, `getFileRemote` succeeds
with `repo/type/name`; for type `data` and every name of length at least 2 whose
first two bytes are not `..`, it succeeds with `repo/data/name[0:2]/name`; in
both cases the leading `repo/` is absent when the prefix is `.`.  The two-byte
shard component is inserted for `data` only. -/
theorem getFileRemote_path (r : Request) (name : GoString)
    (hrepo : getRepo r = ['.'] ∨ PlainSeg (getRepo r)) (hslash : '/' ∉ name) :
    (∀ tpe ∈ plainTypes, PlainSeg name →
      getFileRemote r tpe name = .ok (underRepo (getRepo r) (tpe ++ '/' :: name))) ∧
    (2 ≤ name.length → name.take 2 ≠ ['.', '.'] →
      getFileRemote r "data".toList name
        = .ok (underRepo (getRepo r)
            ("data".toList ++ '/' :: (name.take 2 ++ '/' :: name)))) := by
  constructor
  · intro tpe ht hn
    obtain ⟨hv, hh, hp⟩ := plainTypes_valid tpe ht
    simp only [getFileRemote, hv, hh, Bool.not_true, Bool.false_eq_true, if_false]
    rw [Join_snoc3 _ _ _ hp hn, Join_underRepo _ _ hrepo hp, underRepo_append]
  · intro hlen hdd
    obtain ⟨h2, hn⟩ := take_two_plain name hlen hslash hdd
    have hv : isValidType "data".toList = true := by decide
    have hh : isHashed "data".toList = true := by decide
    have hp : PlainSeg "data".toList := by decide
    have hl : ¬ (name.length < 2) := by omega
    simp only [getFileRemote, hv, hh, Bool.not_true, Bool.false_eq_true, if_false, if_true, hl]
    rw [Join_snoc4 _ _ _ _ hp h2 hn, Join_snoc3 _ _ _ hp h2, Join_underRepo _ _ hrepo hp,
      underRepo_append]
    simp

/-- C1, witness: the repository `repo`, the types `index` and `data`, the name
`abcd`. -/
theorem getFileRemote_path_witness :
    (getRepo (repoRequest "repo".toList "data".toList "abcd".toList []) = ['.']
        ∨ PlainSeg (getRepo (repoRequest "repo".toList "data".toList "abcd".toList []))) ∧
    '/' ∉ "abcd".toList ∧
    getFileRemote (repoRequest "repo".toList "data".toList "abcd".toList [])
        "index".toList "abcd".toList = .ok "repo/index/abcd".toList ∧
    getFileRemote (repoRequest "repo".toList "data".toList "abcd".toList [])
        "data".toList "abcd".toList = .ok "repo/data/ab/abcd".toList :=
  have h := getFileRemote_path (repoRequest "repo".toList "data".toList "abcd".toList [])
    "abcd".toList (by decide) (by decide)
  ⟨by decide, by decide, h.1 "index".toList (by decide) (by decide),
    h.2 (by decide) (by decide)⟩

/-- C1 as stated fails: on a route without repository segment the prefix is `.`
and `getFileRemote` returns `index/abc`, not `./index/abc`; and for the `data`
name `..ab` under the repository `repo` it returns `repo/..ab`, a path with no
shard component, not `repo/data/../..ab`. -/
theorem getFileRemote_literal_counterexample :
    ¬ ((∀ (r : Request) (tpe name : GoString), tpe ∈ plainTypes →
          getFileRemote r tpe name = .ok (getRepo r ++ '/' :: (tpe ++ '/' :: name))) ∧
       (∀ (r : Request) (name : GoString), 2 ≤ name.length →
          getFileRemote r "data".toList name
            = .ok (getRepo r ++ '/' :: ("data".toList ++ '/' :: (name.take 2 ++ '/' :: name))))) ∧
    getFileRemote (rootRequest "index".toList "abc".toList []) "index".toList "abc".toList
      = .ok "index/abc".toList ∧
    getFileRemote (repoRequest "repo".toList "data".toList "..ab".toList [])
      "data".toList "..ab".toList = .ok "repo/..ab".toList := by
  have e : getFileRemote (rootRequest "index".toList "abc".toList []) "index".toList
      "abc".toList = .ok "index/abc".toList := by rfl
  refine ⟨?_, e, by rfl⟩
  rintro ⟨h, _⟩
  have := h (rootRequest "index".toList "abc".toList []) "index".toList "abc".toList
    (by decide)
  rw [e] at this
  exact absurd (Except.ok.inj this) (by decide)

/-- C2.  `getFileRemote` fails if and only if the type is outside the six valid
types or the type is `data` and the name is shorter than 2; for a type outside
the set the error is "invalid file type" whatever the name, for `data` and a
name shorter than 2 it is "file name is too short"; an error carries no path.
`getRemote` fails exactly when the type is outside the set. -/
theorem getFileRemote_error_iff (r : Request) (tpe name : GoString) :
    ((∃ e, getFileRemote r tpe name = .error e)
        ↔ (tpe ∉ validTypes ∨ (tpe = "data".toList ∧ name.length < 2))) ∧
    (tpe ∉ validTypes → getFileRemote r tpe name = .error "invalid file type") ∧
    (tpe = "data".toList → name.length < 2 →
        getFileRemote r tpe name = .error "file name is too short") ∧
    ((∃ e, getRemote r tpe = .error e) ↔ tpe ∉ validTypes) ∧
    (tpe ∉ validTypes → getRemote r tpe = .error "invalid file type") := by
  have hh : isHashed tpe = true ↔ tpe = "data".toList := by simp [isHashed]
  by_cases hv : tpe ∈ validTypes
  · have hv' : isValidType tpe = true := (isValidType_iff tpe).mpr hv
    by_cases hd : tpe = "data".toList
    · subst hd
      have hd' : isHashed ['d', 'a', 't', 'a'] = true := by decide
      have hv1 : isValidType ['d', 'a', 't', 'a'] = true := by decide
      have hv2 : ['d', 'a', 't', 'a'] ∈ validTypes := by decide
      by_cases hl : name.length < 2
      · simp [getFileRemote, getRemote, hv1, hv2, hd', hl]
      · simp [getFileRemote, getRemote, hv1, hv2, hd', hl]
    · have hd' : isHashed tpe = false := by
        cases h : isHashed tpe
        · rfl
        · exact absurd (hh.mp h) hd
      have hd2 : tpe ≠ ['d', 'a', 't', 'a'] := hd
      simp [getFileRemote, getRemote, hv, hv', hd', hd2]
  · have hv' : isValidType tpe = false := by
      cases h : isValidType tpe
      · rfl
      · exact absurd ((isValidType_iff tpe).mp h) hv
    have hd2 : tpe ≠ ['d', 'a', 't', 'a'] := fun e => hv (e ▸ by decide)
    simp [getFileRemote, getRemote, hv, hv', hd2]

/-! ## Handlers: append-only mode, `CheckBlob`, `CreateRepo` without confirmation -/

theorem deleteRequest_status {σ : Type} (fs : FS σ) (s : σ) (remote : GoString) :
    (deleteRequest fs s remote).resp.status = StatusNotFound
      ∨ (deleteRequest fs s remote).resp.status = StatusInternalServerError
      ∨ (deleteRequest fs s remote).resp.status = 200 := by
  unfold deleteRequest
  cases fs.newObject s remote with
  | none => left; rfl
  | some size =>
    rcases h : fs.remove s remote with ⟨res, s1⟩
    cases res
    · right; right; rfl
    · left; rfl
    · right; left; rfl

/-- C3.  Under append-only mode, `DeleteBlob` on any type other than `locks` and
`DeleteConfig` respond 403 Forbidden, make no call on the object store and leave
its state as it was; `DeleteBlob` on type `locks` never responds 403, whatever
the name and the store. -/
theorem appendOnly_delete_forbidden {σ : Type} (cfg : ServerConfig) (fs : FS σ) (r : Request)
    (s : σ) (h : cfg.appendOnly = true) :
    (r.typeParam ≠ "locks".toList →
      (DeleteBlob cfg fs r s).resp.status = StatusForbidden
        ∧ (DeleteBlob cfg fs r s).calls = [] ∧ (DeleteBlob cfg fs r s).store = s) ∧
    ((DeleteConfig cfg fs r s).resp.status = StatusForbidden
        ∧ (DeleteConfig cfg fs r s).calls = [] ∧ (DeleteConfig cfg fs r s).store = s) ∧
    (r.typeParam = "locks".toList →
      (DeleteBlob cfg fs r s).resp.status ≠ StatusForbidden) := by
  refine ⟨?_, ?_, ?_⟩
  · intro ht
    have hc : (cfg.appendOnly = true ∧ r.typeParam ≠ "locks".toList) := ⟨h, ht⟩
    have e : DeleteBlob cfg fs r s = ⟨httpError StatusForbidden, [], s⟩ := by
      unfold DeleteBlob
      rw [if_pos hc]
    rw [e]
    exact ⟨rfl, rfl, rfl⟩
  · have e : DeleteConfig cfg fs r s = ⟨httpError StatusForbidden, [], s⟩ := by
      unfold DeleteConfig
      rw [if_pos h]
    rw [e]
    exact ⟨rfl, rfl, rfl⟩
  · intro ht
    have hc : ¬ (cfg.appendOnly = true ∧ r.typeParam ≠ "locks".toList) := fun e => e.2 ht
    unfold DeleteBlob
    rw [if_neg hc]
    cases getFileRemote r r.typeParam r.nameParam with
    | error e => simp [httpError, StatusInternalServerError, StatusForbidden]
    | ok remote =>
      simp only
      rcases deleteRequest_status fs s remote with e | e | e <;> rw [e] <;> decide

/-- C3, witness: append-only mode, the sample store, a `data` blob and a lock. -/
theorem appendOnly_delete_forbidden_witness :
    appendOnlyConfig.appendOnly = true ∧
    (DeleteBlob appendOnlyConfig memFS
        (repoRequest "repo".toList "data".toList "abcd".toList []) sampleStore).resp.status
      = StatusForbidden ∧
    (DeleteBlob appendOnlyConfig memFS
        (repoRequest "repo".toList "data".toList "abcd".toList []) sampleStore).calls = [] ∧
    (DeleteBlob appendOnlyConfig memFS
        (repoRequest "repo".toList "locks".toList "l1".toList []) sampleStore).resp.status
      ≠ StatusForbidden :=
  ⟨rfl,
    ((appendOnly_delete_forbidden appendOnlyConfig memFS
      (repoRequest "repo".toList "data".toList "abcd".toList []) sampleStore rfl).1
        (by decide)).1,
    ((appendOnly_delete_forbidden appendOnlyConfig memFS
      (repoRequest "repo".toList "data".toList "abcd".toList []) sampleStore rfl).1
        (by decide)).2.1,
    (appendOnly_delete_forbidden appendOnlyConfig memFS
      (repoRequest "repo".toList "locks".toList "l1".toList []) sampleStore rfl).2.2 rfl⟩

/-- C4.  When the `create` query parameter is absent or is any string other than
`true`, `CreateRepo` responds 400 Bad Request, makes no call on the object store
and leaves its state as it was. -/
theorem CreateRepo_unconfirmed {σ : Type} (fs : FS σ) (r : Request) (s : σ)
    (h : queryGet r.query "create".toList ≠ "true".toList) :
    (CreateRepo fs r s).resp.status = StatusBadRequest
      ∧ (CreateRepo fs r s).calls = [] ∧ (CreateRepo fs r s).store = s := by
  have e : CreateRepo fs r s = ⟨httpError StatusBadRequest, [], s⟩ := by
    unfold CreateRepo
    simp only []
    rw [if_pos h]
  rw [e]
  exact ⟨rfl, rfl, rfl⟩

/-- C4, witness: a request with `create=yes`. -/
theorem CreateRepo_unconfirmed_witness :
    queryGet (repoRequest "repo".toList [] [] [("create".toList, "yes".toList)]).query
        "create".toList ≠ "true".toList ∧
    (CreateRepo memFS (repoRequest "repo".toList [] [] [("create".toList, "yes".toList)])
        sampleStore).resp.status = StatusBadRequest ∧
    (CreateRepo memFS (repoRequest "repo".toList [] [] [("create".toList, "yes".toList)])
        sampleStore).calls = [] ∧
    (CreateRepo memFS (repoRequest "repo".toList [] [] [("create".toList, "yes".toList)])
        sampleStore).store = sampleStore :=
  ⟨by decide,
    CreateRepo_unconfirmed memFS
      (repoRequest "repo".toList [] [] [("create".toList, "yes".toList)]) sampleStore
      (by decide)⟩

/-- C7 (amended).  `CheckBlob` responds 500 Internal Server Error, without any
call on the object store, when path resolution fails (type outside the valid
set, or a `data` name shorter than 2); it responds 404 Not Found when the
resolved path is absent in the store; when the object is found it responds 200
with `Content-Length` equal to the object's size.  In every case the only calls
it makes on the store are `NewObject` lookups, so it never opens or reads the
object's content, and the store state is unchanged. -/
theorem CheckBlob_outcome {σ : Type} (fs : FS σ) (r : Request) (s : σ) :
    ((∃ e, getFileRemote r r.typeParam r.nameParam = .error e) →
      (CheckBlob fs r s).resp.status = StatusInternalServerError
        ∧ (CheckBlob fs r s).calls = []) ∧
    (∀ remote, getFileRemote r r.typeParam r.nameParam = .ok remote →
      fs.newObject s remote = none →
      (CheckBlob fs r s).resp.status = StatusNotFound
        ∧ (CheckBlob fs r s).calls = [Call.newObject remote]) ∧
    (∀ remote size, getFileRemote r r.typeParam r.nameParam = .ok remote →
      fs.newObject s remote = some size →
      (CheckBlob fs r s).resp.status = 200
        ∧ (CheckBlob fs r s).resp.contentLength = some size
        ∧ (CheckBlob fs r s).calls = [Call.newObject remote]) ∧
    (∀ c ∈ (CheckBlob fs r s).calls, ∃ remote, c = Call.newObject remote) ∧
    (CheckBlob fs r s).store = s := by
  unfold CheckBlob
  cases hg : getFileRemote r r.typeParam r.nameParam with
  | error e => simp [httpError]
  | ok remote =>
    simp only [headRequest]
    cases hn : fs.newObject s remote with
    | none =>
      refine ⟨fun h => ?_, fun p hp _ => ?_, fun p z hp hz => ?_, ?_, rfl⟩
      · obtain ⟨e, he⟩ := h
        cases he
      · cases hp
        exact ⟨rfl, rfl⟩
      · cases hp
        rw [hn] at hz
        cases hz
      · intro c hc
        exact ⟨remote, by simpa using hc⟩
    | some size =>
      refine ⟨fun h => ?_, fun p hp hz => ?_, fun p z hp hz => ?_, ?_, rfl⟩
      · obtain ⟨e, he⟩ := h
        cases he
      · cases hp
        rw [hn] at hz
        cases hz
      · cases hp
        rw [hn] at hz
        cases hz
        exact ⟨rfl, rfl, rfl⟩
      · intro c hc
        exact ⟨remote, by simpa using hc⟩

/-- C7 as stated fails: when path resolution fails, for the type `bogus` and
for the `data` name `a` of length 1, `CheckBlob` responds 500, not 404. -/
theorem CheckBlob_resolver_error_counterexample :
    (∃ e, getFileRemote (repoRequest "repo".toList "bogus".toList "abcd".toList [])
        "bogus".toList "abcd".toList = .error e) ∧
    (CheckBlob memFS (repoRequest "repo".toList "bogus".toList "abcd".toList [])
        sampleStore).resp.status = 500 ∧
    (∃ e, getFileRemote (repoRequest "repo".toList "data".toList "a".toList [])
        "data".toList "a".toList = .error e) ∧
    (CheckBlob memFS (repoRequest "repo".toList "data".toList "a".toList [])
        sampleStore).resp.status = 500 ∧
    (500 : Nat) ≠ StatusNotFound :=
  ⟨⟨"invalid file type", rfl⟩, rfl, ⟨"file name is too short", rfl⟩, rfl, by decide⟩

/-- C9, the code at the failing input: in append-only mode, `DeleteBlob` on type
`locks` with the name `../data/ab/abcd` passes the append-only test, resolves
the path `repo/data/ab/abcd`, which is a data blob and not below `repo/locks`,
looks it up and removes it, and responds 200. -/
theorem DeleteBlob_appendOnly_traversal :
    getFileRemote (repoRequest "repo".toList "locks".toList "../data/ab/abcd".toList [])
        "locks".toList "../data/ab/abcd".toList = .ok "repo/data/ab/abcd".toList ∧
    (DeleteBlob appendOnlyConfig memFS
        (repoRequest "repo".toList "locks".toList "../data/ab/abcd".toList [])
        sampleStore).calls
      = [Call.newObject "repo/data/ab/abcd".toList, Call.remove "repo/data/ab/abcd".toList] ∧
    (DeleteBlob appendOnlyConfig memFS
        (repoRequest "repo".toList "locks".toList "../data/ab/abcd".toList [])
        sampleStore).resp.status = 200 ∧
    (DeleteBlob appendOnlyConfig memFS
        (repoRequest "repo".toList "locks".toList "../data/ab/abcd".toList [])
        sampleStore).store.objects = [("repo/locks/l1".toList, 3)] ∧
    ¬ ("repo/locks/".toList).isPrefixOf "repo/data/ab/abcd".toList = true := by
  refine ⟨by rfl, by rfl, by rfl, by rfl, by decide⟩

/-! ## `CreateRepo` -/

theorem mkdirRun_append {σ : Type} (fs : FS σ) (a b : List GoString) :
    ∀ (s : σ) (calls : List Call),
    mkdirRun fs (a ++ b) s calls
      = if (mkdirRun fs a s calls).1 = true
        then mkdirRun fs b (mkdirRun fs a s calls).2.1 (mkdirRun fs a s calls).2.2
        else mkdirRun fs a s calls := by
  induction a with
  | nil => intro s calls; simp [mkdirRun]
  | cons d ds ih =>
    intro s calls
    simp only [List.cons_append, mkdirRun]
    rcases h : fs.mkdir s d with ⟨ok, s1⟩
    cases ok
    · simp
    · simp only
      exact ih s1 _

theorem mkdirTypes_eq {σ : Type} (fs : FS σ) (repo : GoString) (s : σ) (calls : List Call) :
    mkdirTypes fs repo validTypes s calls
      = mkdirRun fs (typeDirs.map (fun d => Join [repo, d])) s calls := by
  have hne : ∀ d ∈ typeDirs, d ≠ "config".toList := by decide
  have hv : validTypes = typeDirs ++ ["config".toList] := by decide
  rw [hv]
  generalize typeDirs = ds at hne
  induction ds generalizing s calls with
  | nil => simp [mkdirTypes, mkdirRun]
  | cons d ds ih =>
    have hd : d ≠ "config".toList := hne d (by simp)
    simp only [List.cons_append, mkdirTypes, List.map_cons, mkdirRun, if_neg hd]
    rcases h : fs.mkdir s (Join [repo, d]) with ⟨ok, s1⟩
    cases ok
    · rfl
    · exact ih s1 _ (fun x hx => hne x (List.mem_cons_of_mem _ hx))

theorem mkdirShards_eq {σ : Type} (fs : FS σ) (repo : GoString) (is : List Nat) :
    ∀ (s : σ) (calls : List Call),
    mkdirShards fs repo is s calls
      = mkdirRun fs (is.map (fun i => Join [repo, "data".toList, sprintf02x i])) s calls := by
  induction is with
  | nil => intro s calls; rfl
  | cons i is ih =>
    intro s calls
    simp only [mkdirShards, List.map_cons, mkdirRun]
    rcases h : fs.mkdir s (Join [repo, "data".toList, sprintf02x i]) with ⟨ok, s1⟩
    cases ok
    · rfl
    · exact ih s1 _

theorem mkdirRun_cons {σ : Type} (fs : FS σ) (d : GoString) (ds : List GoString) (s : σ)
    (calls : List Call) :
    mkdirRun fs (d :: ds) s calls
      = if (fs.mkdir s d).1 = true
        then mkdirRun fs ds (fs.mkdir s d).2 (calls ++ [Call.mkdir d])
        else (false, (fs.mkdir s d).2, calls ++ [Call.mkdir d]) := by
  simp only [mkdirRun]
  rcases h : fs.mkdir s d with ⟨ok, s1⟩
  cases ok <;> simp

/-- With `create=true`, `CreateRepo` is one pass of `Mkdir` over `mkdirSequence`,
answering 500 at the first error and 200 when there is none. -/
theorem CreateRepo_eq_mkdirRun {σ : Type} (fs : FS σ) (r : Request) (s : σ)
    (hc : queryGet r.query "create".toList = "true".toList) :
    CreateRepo fs r s
      = if (mkdirRun fs (mkdirSequence (getRepo r)) s []).1 = true
        then ⟨okResponse, (mkdirRun fs (mkdirSequence (getRepo r)) s []).2.2,
          (mkdirRun fs (mkdirSequence (getRepo r)) s []).2.1⟩
        else ⟨httpError StatusInternalServerError,
          (mkdirRun fs (mkdirSequence (getRepo r)) s []).2.2,
          (mkdirRun fs (mkdirSequence (getRepo r)) s []).2.1⟩ := by
  have hc' : ¬ (queryGet r.query "create".toList ≠ "true".toList) := fun h => h hc
  unfold CreateRepo mkdirSequence
  simp only []
  rw [if_neg hc']
  generalize List.range 256 = is
  simp only [mkdirTypes_eq, mkdirShards_eq]
  rw [mkdirRun_cons]
  rcases h : fs.mkdir s (getRepo r) with ⟨ok, s1⟩
  cases ok
  · simp
  · simp only [if_true, List.nil_append]
    rw [mkdirRun_append]
    rcases h2 : mkdirRun fs (typeDirs.map (fun d => Join [getRepo r, d])) s1
      [Call.mkdir (getRepo r)] with ⟨ok2, s2, calls2⟩
    cases ok2
    · simp
    · simp only [if_true]
      rcases h3 : mkdirRun fs
        (is.map (fun i => Join [getRepo r, "data".toList, sprintf02x i])) s2
        calls2 with ⟨ok3, s3, calls3⟩
      cases ok3 <;> simp

theorem firstFailure_bounds {σ : Type} (fs : FS σ) (ds : List GoString) :
    ∀ (s : σ) (k : Nat), firstFailure fs s ds = some k → 1 ≤ k ∧ k ≤ ds.length := by
  induction ds with
  | nil => intro s k h; simp [firstFailure] at h
  | cons d ds ih =>
    intro s k h
    simp only [firstFailure] at h
    split at h
    · cases hf : firstFailure fs (fs.mkdir s d).2 ds with
      | none => rw [hf] at h; simp at h
      | some j =>
        rw [hf] at h
        simp only [Option.map_some', Option.some.injEq] at h
        have := ih _ j hf
        simp only [List.length_cons]
        omega
    · simp only [Option.some.injEq] at h
      simp only [List.length_cons]
      omega

/-- The pass of `Mkdir` over a list of paths succeeds exactly when no call
fails, and the calls made are those up to and including the first failing one. -/
theorem mkdirRun_firstFailure {σ : Type} (fs : FS σ) (ds : List GoString) :
    ∀ (s : σ) (calls : List Call),
    ((mkdirRun fs ds s calls).1 = true ↔ firstFailure fs s ds = none) ∧
    (mkdirRun fs ds s calls).2.2
      = calls ++ (match firstFailure fs s ds with
          | none => ds
          | some k => ds.take k).map Call.mkdir := by
  induction ds with
  | nil => intro s calls; simp [mkdirRun, firstFailure]
  | cons d ds ih =>
    intro s calls
    simp only [mkdirRun, firstFailure]
    rcases h : fs.mkdir s d with ⟨ok, s1⟩
    cases ok
    · simp
    · simp only [if_true]
      obtain ⟨h1, h2⟩ := ih s1 (calls ++ [Call.mkdir d])
      rw [h1, h2]
      cases hf : firstFailure fs s1 ds with
      | none => simp
      | some j => simp

/-! ## The shard names -/

set_option maxRecDepth 100000 in
/-- For `i < 256`, `fmt.Sprintf("%02x", i)` is the two-digit lowercase
hexadecimal numeral of `i`. -/
theorem sprintf02x_eq_hexPair : ∀ i, i < 256 → sprintf02x i = hexPair i := by
  decide!

set_option maxRecDepth 100000 in
theorem sprintf02x_plain : ∀ i, i < 256 → PlainSeg (sprintf02x i) := by
  decide!

set_option maxRecDepth 100000 in
theorem shardNames_nodup : ((List.range 256).map sprintf02x).Nodup := by
  decide!

set_option maxRecDepth 100000 in
theorem hexChars_shard : ∀ a ∈ hexChars, ∀ b ∈ hexChars,
    [a, b] ∈ (List.range 256).map sprintf02x := by
  decide!

theorem mkdirSequence_length (repo : GoString) : (mkdirSequence repo).length = 262 := by
  simp [mkdirSequence, typeDirs]

theorem CreateRepo_ok {σ : Type} (fs : FS σ) (r : Request) (s : σ)
    (hc : queryGet r.query "create".toList = "true".toList)
    (hok : firstFailure fs s (mkdirSequence (getRepo r)) = none) :
    (CreateRepo fs r s).resp = okResponse
      ∧ (CreateRepo fs r s).calls = (mkdirSequence (getRepo r)).map Call.mkdir := by
  obtain ⟨h1, h2⟩ := mkdirRun_firstFailure fs (mkdirSequence (getRepo r)) s []
  rw [CreateRepo_eq_mkdirRun fs r s hc, if_pos (h1.mpr hok)]
  refine ⟨rfl, ?_⟩
  show (mkdirRun fs (mkdirSequence (getRepo r)) s []).2.2 = _
  rw [h2, hok, List.nil_append]

theorem CreateRepo_fail {σ : Type} (fs : FS σ) (r : Request) (s : σ) (k : Nat)
    (hc : queryGet r.query "create".toList = "true".toList)
    (hk : firstFailure fs s (mkdirSequence (getRepo r)) = some k) :
    (CreateRepo fs r s).resp = httpError StatusInternalServerError
      ∧ (CreateRepo fs r s).calls = ((mkdirSequence (getRepo r)).take k).map Call.mkdir := by
  obtain ⟨h1, h2⟩ := mkdirRun_firstFailure fs (mkdirSequence (getRepo r)) s []
  have hn : ¬ ((mkdirRun fs (mkdirSequence (getRepo r)) s []).1 = true) := by
    rw [h1, hk]
    simp
  rw [CreateRepo_eq_mkdirRun fs r s hc, if_neg hn]
  refine ⟨rfl, ?_⟩
  show (mkdirRun fs (mkdirSequence (getRepo r)) s []).2.2 = _
  rw [h2, hk, List.nil_append]

theorem typeDirs_plain : ∀ d ∈ typeDirs, PlainSeg d := by
  decide

/-- The shard directory of `i` is the `data` directory followed by a slash and
the two hexadecimal digits, whatever the repository prefix. -/
theorem shard_join (repo : GoString) (i : Nat) (hi : i < 256) :
    Join [repo, "data".toList, sprintf02x i]
      = Join [repo, "data".toList] ++ '/' :: sprintf02x i :=
  Join_snoc3 repo _ _ (by decide) (sprintf02x_plain i hi)

theorem shardPaths_nodup (repo : GoString) :
    ((List.range 256).map (fun i => Join [repo, "data".toList, sprintf02x i])).Nodup := by
  have e : (List.range 256).map (fun i => Join [repo, "data".toList, sprintf02x i])
      = ((List.range 256).map sprintf02x).map
          (fun x => Join [repo, "data".toList] ++ '/' :: x) := by
    rw [List.map_map]
    apply List.map_congr_left
    intro i hi
    exact shard_join repo i (List.mem_range.mp hi)
  rw [e]
  apply List.Nodup.map _ shardNames_nodup
  intro x y h
  simpa using h

/-- Below a repository that is the storage root `.` or a plain path element, the
paths of the `Mkdir` calls are the textual paths. -/
theorem mkdirSequence_textual (repo : GoString) (hrepo : repo = ['.'] ∨ PlainSeg repo) :
    mkdirSequence repo
      = repo :: (typeDirs.map (underRepo repo)
          ++ (List.range 256).map (fun i => underRepo repo ("data/".toList ++ hexPair i))) := by
  unfold mkdirSequence
  congr 2
  · apply List.map_congr_left
    intro d hd
    exact Join_underRepo repo d hrepo (typeDirs_plain d hd)
  · apply List.map_congr_left
    intro i hi
    have hi' := List.mem_range.mp hi
    rw [shard_join repo i hi', Join_underRepo repo _ hrepo (by decide),
      sprintf02x_eq_hexPair i hi']
    have e : "data/".toList ++ hexPair i = "data".toList ++ '/' :: hexPair i := by
      simp
    rw [e, underRepo_append]

theorem underRepo_injective (repo a b : GoString) (h : underRepo repo a = underRepo repo b) :
    a = b := by
  unfold underRepo at h
  split at h
  · exact h
  · simpa using h

theorem underRepo_ne_self (repo a : GoString) (ha : a ≠ ['.']) : underRepo repo a ≠ repo := by
  unfold underRepo
  split
  · rename_i h
    rw [h]
    exact ha
  · intro h
    have := congrArg List.length h
    simp at this

theorem config_not_in_textual (repo : GoString) :
    underRepo repo "config".toList
      ∉ repo :: (typeDirs.map (underRepo repo)
          ++ (List.range 256).map (fun i => underRepo repo ("data/".toList ++ hexPair i))) := by
  intro h
  rcases List.mem_cons.mp h with h | h
  · exact underRepo_ne_self repo _ (by decide) h
  · rcases List.mem_append.mp h with h | h
    · obtain ⟨d, hd, e⟩ := List.mem_map.mp h
      have := underRepo_injective _ _ _ e
      subst this
      revert hd
      decide
    · obtain ⟨i, _, e⟩ := List.mem_map.mp h
      have := underRepo_injective _ _ _ e
      have h0 := congrArg List.head? this
      simp at h0

theorem memFS_firstFailure_none (ds : List GoString) :
    ∀ (s : MemStore), s.badDirs = [] → firstFailure memFS s ds = none := by
  induction ds with
  | nil => intro s _; rfl
  | cons d ds ih =>
    intro s hs
    have h1 : memFS.mkdir s d = (true, { s with made := s.made ++ [d] }) := by
      simp [memFS, hs]
    simp only [firstFailure, h1, if_true]
    rw [ih _ (by exact hs)]
    rfl

/-- C5 (amended).  With `create=true`, when every `Mkdir` succeeds, `CreateRepo`
responds 200 and makes exactly 262 `Mkdir` calls in this order: the repository
prefix as given, then `path.Join(repo, d)` for `d` = data, index, keys, locks,
snapshots, then `path.Join(repo, "data", xx)` for the 256 two-digit lowercase
hexadecimal numerals `xx` = 00, 01, ..., ff in increasing order; the 256 shard
paths are pairwise distinct for every prefix.  When the prefix is a plain path
element these paths are textually `repo`, `repo/data`, ..., `repo/data/ff`;
when it is the storage root `.` they are `.`, `data`, ..., `data/ff`, without a
leading `./`; in both cases no call is made for the `config` path. -/
theorem CreateRepo_confirmed {σ : Type} (fs : FS σ) (r : Request) (s : σ)
    (hc : queryGet r.query "create".toList = "true".toList)
    (hok : firstFailure fs s (mkdirSequence (getRepo r)) = none) :
    (CreateRepo fs r s).resp.status = 200 ∧
    (CreateRepo fs r s).calls = (mkdirSequence (getRepo r)).map Call.mkdir ∧
    (CreateRepo fs r s).calls.length = 262 ∧
    ((List.range 256).map (fun i => Join [getRepo r, "data".toList, sprintf02x i])).Nodup ∧
    (∀ i, i < 256 → sprintf02x i = hexPair i) ∧
    (getRepo r = ['.'] ∨ PlainSeg (getRepo r) →
      mkdirSequence (getRepo r)
          = getRepo r :: (typeDirs.map (underRepo (getRepo r))
              ++ (List.range 256).map
                  (fun i => underRepo (getRepo r) ("data/".toList ++ hexPair i)))
        ∧ Call.mkdir (underRepo (getRepo r) "config".toList) ∉ (CreateRepo fs r s).calls) := by
  obtain ⟨h1, h2⟩ := CreateRepo_ok fs r s hc hok
  refine ⟨by rw [h1]; rfl, h2, ?_, shardPaths_nodup _, sprintf02x_eq_hexPair, ?_⟩
  · rw [h2, List.length_map, mkdirSequence_length]
  · intro hrepo
    have ht := mkdirSequence_textual (getRepo r) hrepo
    refine ⟨ht, ?_⟩
    rw [h2, ht]
    intro hm
    obtain ⟨d, hd, e⟩ := List.mem_map.mp hm
    cases e
    exact config_not_in_textual (getRepo r) hd

/-- C5, witness: `POST /repo/?create=true` on the sample store. -/
theorem CreateRepo_confirmed_witness :
    queryGet (createRequest "repo".toList).query "create".toList = "true".toList ∧
    firstFailure memFS sampleStore (mkdirSequence (getRepo (createRequest "repo".toList)))
      = none ∧
    (CreateRepo memFS (createRequest "repo".toList) sampleStore).resp.status = 200 ∧
    (CreateRepo memFS (createRequest "repo".toList) sampleStore).calls.length = 262 :=
  have h := CreateRepo_confirmed memFS (createRequest "repo".toList) sampleStore rfl
    (memFS_firstFailure_none _ sampleStore rfl)
  ⟨rfl, memFS_firstFailure_none _ sampleStore rfl, h.1, h.2.2.1⟩

/-- C5 as stated fails: on `POST /?create=true` the repository prefix is `.` and
the calls after `Mkdir(".")` are `Mkdir("data")`, `Mkdir("index")`, ..., not
`Mkdir("./data")`, `Mkdir("./index")`, .... -/
theorem CreateRepo_literal_counterexample :
    ¬ (∀ (σ : Type) (fs : FS σ) (r : Request) (s : σ),
        queryGet r.query "create".toList = "true".toList →
        firstFailure fs s (mkdirSequence (getRepo r)) = none →
        (CreateRepo fs r s).calls
          = (getRepo r :: (typeDirs.map (fun d => getRepo r ++ '/' :: d)
              ++ (List.range 256).map
                  (fun i => getRepo r ++ '/' :: ("data/".toList ++ hexPair i)))).map
              Call.mkdir) ∧
    (CreateRepo memFS rootCreateRequest sampleStore).calls.take 3
      = [Call.mkdir ".".toList, Call.mkdir "data".toList, Call.mkdir "index".toList] := by
  have hok := memFS_firstFailure_none (mkdirSequence (getRepo rootCreateRequest)) sampleStore rfl
  have hcalls := (CreateRepo_ok memFS rootCreateRequest sampleStore rfl hok).2
  have hrepo : getRepo rootCreateRequest = ['.'] := by decide
  have ht := mkdirSequence_textual (getRepo rootCreateRequest) (Or.inl hrepo)
  rw [ht, hrepo] at hcalls
  constructor
  · intro h
    have h2 := h MemStore memFS rootCreateRequest sampleStore rfl hok
    rw [hcalls, hrepo] at h2
    simp only [typeDirs, List.map_cons, List.cons_append, List.cons.injEq, Call.mkdir.injEq]
      at h2
    exact absurd h2.2.1 (by decide)
  · rw [hcalls]
    decide

/-- C8.  With `create=true`, if the `k`-th `Mkdir` of the fixed sequence of
`CreateRepo` (root, five type directories, 256 shards) is the first one to fail,
then `k` is between 1 and 262, `CreateRepo` responds 500, the calls it made on
the store are exactly the first `k` `Mkdir` calls of the sequence, none after
the failing one, and there is no remove or other call among them. -/
theorem CreateRepo_first_failure {σ : Type} (fs : FS σ) (r : Request) (s : σ) (k : Nat)
    (hc : queryGet r.query "create".toList = "true".toList)
    (hk : firstFailure fs s (mkdirSequence (getRepo r)) = some k) :
    1 ≤ k ∧ k ≤ 262 ∧
    (CreateRepo fs r s).resp.status = StatusInternalServerError ∧
    (CreateRepo fs r s).calls = ((mkdirSequence (getRepo r)).take k).map Call.mkdir ∧
    (CreateRepo fs r s).calls.length = k ∧
    (∀ c ∈ (CreateRepo fs r s).calls, ∃ d, c = Call.mkdir d) := by
  obtain ⟨h1, h2⟩ := CreateRepo_fail fs r s k hc hk
  have hb := firstFailure_bounds fs _ s k hk
  rw [mkdirSequence_length] at hb
  refine ⟨hb.1, hb.2, by rw [h1]; rfl, h2, ?_, ?_⟩
  · rw [h2, List.length_map, List.length_take, mkdirSequence_length]
    omega
  · intro c hcm
    rw [h2] at hcm
    obtain ⟨d, _, e⟩ := List.mem_map.mp hcm
    exact ⟨d, e.symm⟩

/-- C8, witness: `Mkdir` fails on `repo/index`, the third call. -/
theorem CreateRepo_first_failure_witness :
    queryGet (createRequest "repo".toList).query "create".toList = "true".toList ∧
    firstFailure memFS brokenIndexStore (mkdirSequence (getRepo (createRequest "repo".toList)))
      = some 3 ∧
    (CreateRepo memFS (createRequest "repo".toList) brokenIndexStore).resp.status
      = StatusInternalServerError ∧
    (CreateRepo memFS (createRequest "repo".toList) brokenIndexStore).calls.length = 3 :=
  have hk : firstFailure memFS brokenIndexStore
      (mkdirSequence (getRepo (createRequest "repo".toList))) = some 3 := by decide
  have h := CreateRepo_first_failure memFS (createRequest "repo".toList) brokenIndexStore 3
    rfl hk
  ⟨rfl, hk, h.2.2.1, h.2.2.2.2.1⟩

/-! ## The shard directories cover the data blobs -/

theorem parentDir_snoc (x name : GoString) (h : '/' ∉ name) :
    parentDir (x ++ '/' :: name) = x := by
  have hr : '/' ∉ name.reverse := by simpa using h
  have e : (x ++ '/' :: name).reverse = name.reverse ++ '/' :: x.reverse := by simp
  unfold parentDir
  rw [e, dropWhile_append_slash, dropWhile_no_slash _ hr]
  simp

theorem hexChars_name (name : GoString) (hlen : 2 ≤ name.length)
    (hhex : ∀ c ∈ name, c ∈ hexChars) :
    (∃ i, i < 256 ∧ sprintf02x i = name.take 2) ∧ '/' ∉ name := by
  constructor
  · match name, hlen, hhex with
    | a :: b :: rest, _, hhex =>
      have ha : a ∈ hexChars := hhex a (by simp)
      have hb : b ∈ hexChars := hhex b (by simp)
      obtain ⟨i, hi, e⟩ := List.mem_map.mp (hexChars_shard a ha b hb)
      exact ⟨i, List.mem_range.mp hi, by simpa using e⟩
  · intro h
    exact absurd (hhex _ h) (by decide)

/-- C10.  The layout `CreateRepo` creates covers every path `getFileRemote`
resolves for a hex-named data blob: for every repository prefix and every name
of length at least 2 made of lowercase hexadecimal digits, `getFileRemote`
succeeds for type `data`, and the parent directory of the path it returns is
`path.Join(repo, "data", xx)` for one of the 256 shard numerals `xx`, a
directory `CreateRepo` makes a `Mkdir` call for on the same prefix (with
`create=true`, when every `Mkdir` succeeds). -/
theorem shard_dir_created {σ : Type} (fs : FS σ) (r rc : Request) (s : σ) (name : GoString)
    (hrepo : getRepo rc = getRepo r)
    (hc : queryGet rc.query "create".toList = "true".toList)
    (hok : firstFailure fs s (mkdirSequence (getRepo rc)) = none)
    (hlen : 2 ≤ name.length) (hhex : ∀ c ∈ name, c ∈ hexChars) :
    ∃ p, getFileRemote r "data".toList name = .ok p ∧
      (∃ i, i < 256 ∧ parentDir p = Join [getRepo r, "data".toList, sprintf02x i]) ∧
      Call.mkdir (parentDir p) ∈ (CreateRepo fs rc s).calls := by
  obtain ⟨⟨i, hi, e⟩, hsl⟩ := hexChars_name name hlen hhex
  have h2 : PlainSeg (name.take 2) := e ▸ sprintf02x_plain i hi
  have hn : PlainSeg name := (take_two_plain name hlen hsl h2.2.2.2).2
  have hv : isValidType "data".toList = true := by decide
  have hh : isHashed "data".toList = true := by decide
  have hl : ¬ (name.length < 2) := by omega
  have hp : parentDir (Join [getRepo r, "data".toList, name.take 2, name])
      = Join [getRepo r, "data".toList, sprintf02x i] := by
    rw [Join_snoc4 _ _ _ _ (by decide) h2 hn, parentDir_snoc _ _ hsl, e]
  refine ⟨Join [getRepo r, "data".toList, name.take 2, name], ?_, ⟨i, hi, hp⟩, ?_⟩
  · simp only [getFileRemote, hv, hh, Bool.not_true, Bool.false_eq_true, if_false, if_true, hl]
  · rw [(CreateRepo_ok fs rc s hc hok).2, hp, hrepo]
    apply List.mem_map_of_mem
    unfold mkdirSequence
    apply List.mem_cons_of_mem
    apply List.mem_append_right
    exact List.mem_map.mpr ⟨i, List.mem_range.mpr hi, rfl⟩

/-- C10, witness: the data blob `abcd` below the repository `repo`. -/
theorem shard_dir_created_witness :
    ∃ p, getFileRemote (repoRequest "repo".toList "data".toList "abcd".toList [])
        "data".toList "abcd".toList = .ok p ∧
      (∃ i, i < 256 ∧ parentDir p = Join [getRepo
          (repoRequest "repo".toList "data".toList "abcd".toList []), "data".toList,
          sprintf02x i]) ∧
      Call.mkdir (parentDir p) ∈ (CreateRepo memFS (createRequest "repo".toList)
        sampleStore).calls :=
  shard_dir_created memFS (repoRequest "repo".toList "data".toList "abcd".toList [])
    (createRequest "repo".toList) sampleStore "abcd".toList rfl rfl
    (memFS_firstFailure_none _ sampleStore rfl) (by decide) (by decide)

/-! ## `ListBlobs` -/

theorem listLoop_hashed {σ : Type} (fs : FS σ) (s : σ) (fileType : GoString)
    (sub : GoString → List GoString) (hh : isHashed fileType = true) (items : List GoString) :
    ∀ (names : List GoString) (calls : List Call),
    (∀ i ∈ items, fs.dirSorted s i = some (sub i)) →
    listLoop fs s fileType items names calls
      = (some (names ++ items.flatMap (fun i => (sub i).map Base)),
          calls ++ items.map Call.dirSorted) := by
  induction items with
  | nil => intro names calls _; simp [listLoop]
  | cons i items ih =>
    intro names calls h
    have hi := h i (by simp)
    simp only [listLoop, hh, if_true, hi]
    rw [ih _ _ (fun j hj => h j (List.mem_cons_of_mem _ hj))]
    simp [List.flatMap]

theorem listLoop_plain {σ : Type} (fs : FS σ) (s : σ) (fileType : GoString)
    (hh : isHashed fileType = false) (items : List GoString) :
    ∀ (names : List GoString) (calls : List Call),
    listLoop fs s fileType items names calls = (some (names ++ items.map Base), calls) := by
  induction items with
  | nil => intro names calls; simp [listLoop]
  | cons i items ih =>
    intro names calls
    simp only [listLoop, hh, Bool.false_eq_true, if_false]
    rw [ih]
    simp

theorem dropWhile_slash_head (l : GoString) (h : ∃ b ∈ l, b ≠ '/') :
    ∃ c q, l.dropWhile (fun b => b == '/') = c :: q ∧ c ≠ '/' := by
  induction l with
  | nil => simp at h
  | cons a l ih =>
    by_cases ha : a = '/'
    · subst ha
      obtain ⟨b, hb, hne⟩ := h
      have hb' : b ∈ l := by
        rcases List.mem_cons.mp hb with e | e
        · exact absurd e hne
        · exact e
      obtain ⟨c, q, e, hc⟩ := ih ⟨b, hb', hne⟩
      exact ⟨c, q, by simpa using e, hc⟩
    · exact ⟨a, l, by simp [ha], ha⟩

/-- The result of `path.Base` contains no slash, for a path that has a byte
other than a slash. -/
theorem Base_no_slash (e : GoString) (h : ∃ b ∈ e, b ≠ '/') : '/' ∉ Base e := by
  have hne : e ≠ [] := by
    rintro rfl
    simp at h
  have hr : ∃ b ∈ e.reverse, b ≠ '/' := by simpa using h
  obtain ⟨c, q, hq, hc⟩ := dropWhile_slash_head e.reverse hr
  unfold Base
  simp only [if_neg hne, List.reverse_reverse, hq]
  have htw : (c :: q).takeWhile (fun b => b != '/') = c :: q.takeWhile (fun b => b != '/') := by
    simp [hc]
  rw [htw]
  simp only [List.reverse_eq_nil_iff, List.cons_ne_nil, if_false, List.mem_reverse]
  intro hm
  have hm' : '/' ∈ (c :: q).takeWhile (fun b => b != '/') := by rw [htw]; exact hm
  have := List.mem_takeWhile_imp hm'
  simp at this

/-- C6.  When the listing of the type directory succeeds and, for type `data`,
the listing of every shard directory succeeds, `ListBlobs` responds 200 and the
names it returns are: for type `data`, the base names of the entries of the
shard directories, shard after shard in the order of the listing of the type
directory, and within a shard in the order of its listing; for every other type,
the base names of the entries of the type directory in the order of the listing.
No returned name contains a slash, hence no shard prefix, provided every listed
entry has a byte other than a slash. -/
theorem ListBlobs_names {σ : Type} (fs : FS σ) (r : Request) (s : σ) (dir : GoString)
    (items : List GoString) (sub : GoString → List GoString)
    (hdir : getRemote r r.typeParam = .ok dir) (hitems : fs.dirSorted s dir = some items)
    (hsub : r.typeParam = "data".toList → ∀ i ∈ items, fs.dirSorted s i = some (sub i)) :
    (ListBlobs fs r s).resp.status = 200 ∧
    (r.typeParam = "data".toList →
      (ListBlobs fs r s).resp.names = some (items.flatMap (fun i => (sub i).map Base)) ∧
      ((∀ i ∈ items, ∀ e ∈ sub i, ∃ b ∈ e, b ≠ '/') →
        ∀ n ∈ items.flatMap (fun i => (sub i).map Base), '/' ∉ n)) ∧
    (r.typeParam ≠ "data".toList →
      (ListBlobs fs r s).resp.names = some (items.map Base) ∧
      ((∀ e ∈ items, ∃ b ∈ e, b ≠ '/') → ∀ n ∈ items.map Base, '/' ∉ n)) ∧
    (ListBlobs fs r s).store = s := by
  by_cases ht : r.typeParam = "data".toList
  · have hh : isHashed r.typeParam = true := by simp [isHashed, ht]
    have e : ListBlobs fs r s
        = ⟨⟨200, none, some (items.flatMap (fun i => (sub i).map Base))⟩,
            [Call.dirSorted dir] ++ items.map Call.dirSorted, s⟩ := by
      unfold ListBlobs
      simp only [hdir, hitems]
      rw [listLoop_hashed fs s _ sub hh items _ _ (hsub ht)]
      simp
    rw [e]
    refine ⟨rfl, fun _ => ⟨rfl, ?_⟩, fun h => absurd ht h, rfl⟩
    intro hwf n hn
    obtain ⟨i, hi, hn'⟩ := List.mem_flatMap.mp hn
    obtain ⟨x, hx, rfl⟩ := List.mem_map.mp hn'
    exact Base_no_slash x (hwf i hi x hx)
  · have hh : isHashed r.typeParam = false := by
      have ht' : r.typeParam ≠ ['d', 'a', 't', 'a'] := ht
      simp [isHashed, ht']
    have e : ListBlobs fs r s
        = ⟨⟨200, none, some (items.map Base)⟩, [Call.dirSorted dir], s⟩ := by
      unfold ListBlobs
      simp only [hdir, hitems]
      rw [listLoop_plain fs s _ hh items]
      simp
    rw [e]
    refine ⟨rfl, fun h => absurd h ht, fun _ => ⟨rfl, ?_⟩, rfl⟩
    intro hwf n hn
    obtain ⟨x, hx, rfl⟩ := List.mem_map.mp hn
    exact Base_no_slash x (hwf x hx)

/-- C6, witness: the `data` blobs of the sample store, two shards. -/
theorem ListBlobs_names_witness :
    getRemote (repoRequest "repo".toList "data".toList [] [])
        (repoRequest "repo".toList "data".toList [] []).typeParam = .ok "repo/data".toList ∧
    memFS.dirSorted sampleStore "repo/data".toList
      = some ["repo/data/ab".toList, "repo/data/cd".toList] ∧
    (ListBlobs memFS (repoRequest "repo".toList "data".toList [] []) sampleStore).resp.names
      = some ["abcd".toList, "abff".toList, "cd01".toList] :=
  have h := ListBlobs_names memFS (repoRequest "repo".toList "data".toList [] []) sampleStore
    "repo/data".toList ["repo/data/ab".toList, "repo/data/cd".toList]
    (fun i => (memFS.dirSorted sampleStore i).getD []) (by rfl) (by rfl)
    (fun _ => by decide)
  ⟨by rfl, by rfl, (h.2.1 rfl).1⟩

end Restserver
